import Mathlib

/-!
# Verification of a Brainfuck tokenizer and interpreter

Shallow embedding of `src/brainfuck.py`: the token enumeration, the
character-to-token map, the lexer's `tokenize`, the interpreter's
`validate`, `_calc_jump_table` (here `calc_jump_table`), `__init__`
(here `mkInterpreter`) and `run` (here modelled by the single-step
function `step`, iterated with explicit fuel by `runFuel`, since the
source's `while True` loop has no termination guarantee).

Python dictionaries are modelled as association lists (`dlookup`,
`dictSet`, `dictSetdefault`), Python `int` as `Int`, and Python
exceptions (`IndexError` from `list.pop` on an empty list, `KeyError`
from `dict[k]` with a missing key, `ValueError` from `chr` outside
`[0, 0x10FFFF]`) as an `Except PyError` result.
-/

namespace Brainfuck

/-- The eight instruction kinds, as in the source's `TokenEnum`. -/
inductive TokenEnum
  | INCREMENT_POINTER
  | DECREMENT_POINTER
  | INCREMENT_BYTE
  | DECREMENT_BYTE
  | OUTPUT_BYTE
  | INPUT_BYTE
  | LOOP_START
  | LOOP_END
deriving DecidableEq

/-- A token: an instruction kind plus the zero-based character offset in the
source string, as in the source's `BrainfuckToken`. -/
structure BrainfuckToken where
  type : TokenEnum
  char_idx : Nat
deriving DecidableEq

/-- The source's `BrainfuckToken.token_enum_map`. -/
def token_enum_map : List (Char × TokenEnum) :=
  [('>', .INCREMENT_POINTER),
   ('<', .DECREMENT_POINTER),
   ('+', .INCREMENT_BYTE),
   ('-', .DECREMENT_BYTE),
   ('.', .OUTPUT_BYTE),
   (',', .INPUT_BYTE),
   ('[', .LOOP_START),
   (']', .LOOP_END)]

/-- First-match lookup in an association list (Python `dict` read). -/
def dlookup {α β : Type} [DecidableEq α] (k : α) : List (α × β) → Option β
  | [] => none
  | (k', v) :: rest => if k' = k then some v else dlookup k rest

/-- Python `d[k] = v`: overwrite in place, else append (insertion order kept). -/
def dictSet {α β : Type} [DecidableEq α] (d : List (α × β)) (k : α) (v : β) :
    List (α × β) :=
  match d with
  | [] => [(k, v)]
  | (k', v') :: rest =>
    if k' = k then (k, v) :: rest else (k', v') :: dictSet rest k v

/-- Python `d.setdefault(k, v)`: insert `(k, v)` only when `k` is absent. -/
def dictSetdefault {α β : Type} [DecidableEq α] (d : List (α × β)) (k : α)
    (v : β) : List (α × β) :=
  if (dlookup k d).isSome then d else d ++ [(k, v)]

instance exceptDecidableEq {ε α : Type} [DecidableEq ε] [DecidableEq α] :
    DecidableEq (Except ε α) := fun a b =>
  match a, b with
  | .error e1, .error e2 =>
    if h : e1 = e2 then .isTrue (by rw [h])
    else .isFalse (by intro hc; cases hc; exact h rfl)
  | .error _, .ok _ => .isFalse (by intro hc; cases hc)
  | .ok _, .error _ => .isFalse (by intro hc; cases hc)
  | .ok v1, .ok v2 =>
    if h : v1 = v2 then .isTrue (by rw [h])
    else .isFalse (by intro hc; cases hc; exact h rfl)

/-- The source's `valid_whitespaces` list in `BrainfuckLexer.tokenize`. -/
def valid_whitespaces : List Char := [' ', '\n', '\t']

/-- The loop of `BrainfuckLexer.tokenize`: walk the characters with their
index, skip whitespace, skip characters outside `token_enum_map`, and append
a token for each recognized character. -/
def tokenizeGo : Nat → List Char → List BrainfuckToken
  | _, [] => []
  | idx, c :: rest =>
    if c ∈ valid_whitespaces then tokenizeGo (idx + 1) rest
    else
      match dlookup c token_enum_map with
      | none => tokenizeGo (idx + 1) rest
      | some t => ⟨t, idx⟩ :: tokenizeGo (idx + 1) rest

/-- The source's `BrainfuckLexer.tokenize`. -/
def tokenize (program : List Char) : List BrainfuckToken :=
  tokenizeGo 0 program

/-- Python exceptions the modelled code can raise. -/
inductive PyError
  | indexError
  | keyError
  | valueError
deriving DecidableEq

/-- The loop of `BrainfuckInterpreter.validate`: `jump_stack` holds the
indices of pending `LOOP_START`s; a `LOOP_END` pops (raising `IndexError`
on an empty stack, as Python's `list.pop` does). Returns the final stack. -/
def validateLoop : List Nat → Nat → List BrainfuckToken →
    Except PyError (List Nat)
  | stack, _, [] => .ok stack
  | stack, i, t :: rest =>
    match t.type with
    | .LOOP_START => validateLoop (i :: stack) (i + 1) rest
    | .LOOP_END =>
      match stack with
      | [] => .error .indexError
      | _ :: s => validateLoop s (i + 1) rest
    | _ => validateLoop stack (i + 1) rest

/-- The source's `BrainfuckInterpreter.validate`: returns
`not bool(jump_stack)`, i.e. whether the stack ended empty. -/
def validate (tokens : List BrainfuckToken) : Except PyError Bool :=
  (validateLoop [] 0 tokens).map (fun stack => stack.isEmpty)

/-- The loop of `BrainfuckInterpreter._calc_jump_table`: on `LOOP_END` at
index `i`, pop `start_loop` and record `jump_table[i] = start_loop` then
`jump_table[start_loop] = i + 1`. -/
def calcLoop : List (Nat × Nat) → List Nat → Nat → List BrainfuckToken →
    Except PyError (List (Nat × Nat))
  | jt, _, _, [] => .ok jt
  | jt, stack, i, t :: rest =>
    match t.type with
    | .LOOP_START => calcLoop jt (i :: stack) (i + 1) rest
    | .LOOP_END =>
      match stack with
      | [] => .error .indexError
      | start_loop :: s =>
        calcLoop (dictSet (dictSet jt i start_loop) start_loop (i + 1)) s
          (i + 1) rest
    | _ => calcLoop jt stack (i + 1) rest

/-- The source's `BrainfuckInterpreter._calc_jump_table`. -/
def calc_jump_table (tokens : List BrainfuckToken) :
    Except PyError (List (Nat × Nat)) :=
  calcLoop [] [] 0 tokens

/-- A constructed interpreter: the fields set by
`BrainfuckInterpreter.__init__`. -/
structure BrainfuckInterpreter where
  tokens : List BrainfuckToken
  jump_table : List (Nat × Nat)
  bits : Int
  bitwidth : Int
deriving DecidableEq

/-- The source's `BrainfuckInterpreter.__init__`: run `validate` (its boolean
verdict is discarded, but an exception propagates), build the jump table,
then set `bits`/`bitwidth`, falling back to 8 bits for an unsupported
request. -/
def mkInterpreter (tokens : List BrainfuckToken) (bits : Int) :
    Except PyError BrainfuckInterpreter := do
  let _ ← validate tokens
  let jt ← calc_jump_table tokens
  if bits = 8 ∨ bits = 16 ∨ bits = 32 ∨ bits = 64 then
    .ok ⟨tokens, jt, bits, 2 ^ bits.toNat⟩
  else
    .ok ⟨tokens, jt, 8, 256⟩

/-- The mutable state of `BrainfuckInterpreter.run`: data pointer, program
counter, cell store, and accumulated output (a list of code points). The
source's `steps` counter is diagnostic only and not modelled. -/
structure RunState where
  pointer : Int
  instr : Nat
  data : List (Int × Int)
  output : List Int
deriving DecidableEq

/-- The state at the top of `run`: `pointer = 0`, `instr = 0`, empty cell
store, empty output. -/
def initState : RunState := ⟨0, 0, [], []⟩

/-- `data[pointer] += 1; if data[pointer] == bitwidth: data[pointer] = 0`. -/
def incWrap (bitwidth v : Int) : Int :=
  if v + 1 = bitwidth then 0 else v + 1

/-- `data[pointer] -= 1; if data[pointer] == -1: data[pointer] = bitwidth-1`. -/
def decWrap (bitwidth v : Int) : Int :=
  if v - 1 = -1 then bitwidth - 1 else v - 1

/-- One iteration of the `while True` loop body of `run` at an in-bounds
program counter: `data.setdefault(pointer, 0)` first, then dispatch on the
token type. `chr` raises `ValueError` outside `[0, 0x10FFFF]`; a missing
jump-table key raises `KeyError`. When `instr` is out of bounds the loop
would `break`; `step` then returns the state unchanged. -/
def step (I : BrainfuckInterpreter) (st : RunState) : Except PyError RunState :=
  match I.tokens.get? st.instr with
  | none => .ok st
  | some token =>
    let d := dictSetdefault st.data st.pointer 0
    match token.type with
    | .INCREMENT_POINTER =>
      .ok ⟨st.pointer + 1, st.instr + 1, d, st.output⟩
    | .DECREMENT_POINTER =>
      .ok ⟨st.pointer - 1, st.instr + 1, d, st.output⟩
    | .INCREMENT_BYTE =>
      match dlookup st.pointer d with
      | none => .error .keyError
      | some v =>
        .ok ⟨st.pointer, st.instr + 1, dictSet d st.pointer (incWrap I.bitwidth v),
          st.output⟩
    | .DECREMENT_BYTE =>
      match dlookup st.pointer d with
      | none => .error .keyError
      | some v =>
        .ok ⟨st.pointer, st.instr + 1, dictSet d st.pointer (decWrap I.bitwidth v),
          st.output⟩
    | .OUTPUT_BYTE =>
      let d2 := dictSetdefault d st.pointer 0
      match dlookup st.pointer d2 with
      | none => .error .keyError
      | some v =>
        if 0 ≤ v ∧ v ≤ 1114111 then
          .ok ⟨st.pointer, st.instr + 1, d2, st.output ++ [v]⟩
        else
          .error .valueError
    | .INPUT_BYTE =>
      .ok ⟨st.pointer, st.instr + 1, d, st.output⟩
    | .LOOP_START =>
      match dlookup st.pointer d with
      | none => .error .keyError
      | some v =>
        if v = 0 then
          match dlookup st.instr I.jump_table with
          | none => .error .keyError
          | some target => .ok ⟨st.pointer, target, d, st.output⟩
        else
          .ok ⟨st.pointer, st.instr + 1, d, st.output⟩
    | .LOOP_END =>
      match dlookup st.pointer d with
      | none => .error .keyError
      | some v =>
        if v = 0 then
          .ok ⟨st.pointer, st.instr + 1, d, st.output⟩
        else
          match dlookup st.instr I.jump_table with
          | none => .error .keyError
          | some target => .ok ⟨st.pointer, target, d, st.output⟩

/-- The source's `run`, with explicit fuel: `none` means the fuel ran out
(the source loop would still be running), `some (.ok out)` that the loop
broke with accumulated output `out`, `some (.error e)` that an exception
was raised. -/
def runFuel (I : BrainfuckInterpreter) : Nat → RunState →
    Option (Except PyError (List Int))
  | 0, _ => none
  | fuel + 1, st =>
    if st.instr < I.tokens.length then
      match step I st with
      | .error e => some (.error e)
      | .ok st' => runFuel I fuel st'
    else
      some (.ok st.output)

/-- `n` iterations of the loop body of `run` (stopping early, state
unchanged, once the program counter leaves the instruction sequence):
the states reachable during execution. -/
def stepN (I : BrainfuckInterpreter) : Nat → RunState → Except PyError RunState
  | 0, st => .ok st
  | n + 1, st =>
    if st.instr < I.tokens.length then
      match step I st with
      | .error e => .error e
      | .ok st' => stepN I n st'
    else
      .ok st

/-! ## Association-list (Python dict) lemmas -/

theorem dlookup_append {α β : Type} [DecidableEq α] (k : α)
    (d1 d2 : List (α × β)) :
    dlookup k (d1 ++ d2) =
      match dlookup k d1 with
      | some v => some v
      | none => dlookup k d2 := by
  induction d1 with
  | nil => simp [dlookup]
  | cons p rest ih =>
    obtain ⟨k', v'⟩ := p
    by_cases h : k' = k <;> simp [dlookup, h, ih]

theorem dlookup_dictSet_self {α β : Type} [DecidableEq α]
    (d : List (α × β)) (k : α) (v : β) :
    dlookup k (dictSet d k v) = some v := by
  induction d with
  | nil => simp [dictSet, dlookup]
  | cons p rest ih =>
    obtain ⟨k', v'⟩ := p
    by_cases h : k' = k <;> simp [dictSet, dlookup, h, ih]

theorem dlookup_dictSet_ne {α β : Type} [DecidableEq α]
    (d : List (α × β)) (k k' : α) (v : β) (hne : k' ≠ k) :
    dlookup k' (dictSet d k v) = dlookup k' d := by
  have hne' : k ≠ k' := fun h => hne h.symm
  induction d with
  | nil => simp [dictSet, dlookup, hne']
  | cons p rest ih =>
    obtain ⟨k0, v0⟩ := p
    by_cases h : k0 = k
    · subst h
      simp [dictSet, dlookup, hne']
    · simp [dictSet, dlookup, h, ih]

theorem isSome_dlookup_dictSet {α β : Type} [DecidableEq α]
    (d : List (α × β)) (k k' : α) (v : β)
    (h : (dlookup k' d).isSome) : (dlookup k' (dictSet d k v)).isSome := by
  by_cases hk : k' = k
  · subst hk; simp [dlookup_dictSet_self]
  · rwa [dlookup_dictSet_ne d k k' v hk]

theorem dlookup_dictSet_cases {α β : Type} [DecidableEq α]
    {d : List (α × β)} {k k' : α} {v w : β}
    (h : dlookup k' (dictSet d k v) = some w) :
    (k' = k ∧ w = v) ∨ dlookup k' d = some w := by
  by_cases hk : k' = k
  · subst hk
    rw [dlookup_dictSet_self] at h
    exact Or.inl ⟨rfl, (Option.some_injective _ h).symm⟩
  · rw [dlookup_dictSet_ne d k k' v hk] at h
    exact Or.inr h

theorem dlookup_dictSetdefault_self {α β : Type} [DecidableEq α]
    (d : List (α × β)) (k : α) (v : β) :
    dlookup k (dictSetdefault d k v) = some ((dlookup k d).getD v) := by
  unfold dictSetdefault
  cases h : dlookup k d with
  | some w => simp [h]
  | none => simp [h, dlookup_append, dlookup]

theorem dlookup_dictSetdefault_ne {α β : Type} [DecidableEq α]
    {d : List (α × β)} {k k' : α} {v : β} (hne : k' ≠ k) :
    dlookup k' (dictSetdefault d k v) = dlookup k' d := by
  have hne' : k ≠ k' := fun h => hne h.symm
  unfold dictSetdefault
  split
  · rfl
  · rw [dlookup_append]
    cases h3 : dlookup k' d with
    | some u => rfl
    | none => simp [dlookup, hne']

theorem dlookup_dictSetdefault_of_some {α β : Type} [DecidableEq α]
    {d : List (α × β)} {k k' : α} {v w : β}
    (h : dlookup k' d = some w) :
    dlookup k' (dictSetdefault d k v) = some w := by
  by_cases hk : k' = k
  · subst hk
    rw [dlookup_dictSetdefault_self, h]
    rfl
  · rw [dlookup_dictSetdefault_ne hk]
    exact h

theorem dlookup_dictSetdefault_cases {α β : Type} [DecidableEq α]
    {d : List (α × β)} {k k' : α} {v w : β}
    (h : dlookup k' (dictSetdefault d k v) = some w) :
    dlookup k' d = some w ∨ w = v := by
  by_cases hk : k' = k
  · subst hk
    rw [dlookup_dictSetdefault_self, Option.some_inj] at h
    cases h3 : dlookup k' d with
    | some u =>
      rw [h3] at h
      simp only [Option.getD_some] at h
      exact Or.inl (congrArg some h)
    | none =>
      rw [h3] at h
      simp only [Option.getD_none] at h
      exact Or.inr h.symm
  · rw [dlookup_dictSetdefault_ne hk] at h
    exact Or.inl h

/-! ## Tokenizer characterization -/

/-- The tokenizer contract as the spec words it: one token per
recognized-symbol character, in source order, tagged with its zero-based
offset; every other character produces nothing. -/
def tokenizeSpec (program : List Char) : List BrainfuckToken :=
  program.enum.filterMap (fun p =>
    (dlookup p.2 token_enum_map).map (fun t => ⟨t, p.1⟩))

theorem whitespace_not_in_map :
    ∀ c ∈ valid_whitespaces, dlookup c token_enum_map = none := by
  decide

theorem tokenizeGo_eq_filterMap (chars : List Char) : ∀ idx,
    tokenizeGo idx chars = (chars.enumFrom idx).filterMap (fun p =>
      (dlookup p.2 token_enum_map).map (fun t => ⟨t, p.1⟩)) := by
  induction chars with
  | nil => intro idx; rfl
  | cons c rest ih =>
    intro idx
    by_cases hw : c ∈ valid_whitespaces
    · have hnone := whitespace_not_in_map c hw
      simp [tokenizeGo, hw, List.enumFrom, List.filterMap_cons, hnone, ih]
    · simp only [tokenizeGo, hw, if_false]
      cases hc : dlookup c token_enum_map with
      | none => simp [List.enumFrom, List.filterMap_cons, hc, ih]
      | some t => simp [List.enumFrom, List.filterMap_cons, hc, ih]

/-! ## Bracket counting and well-formedness -/

/-- Number of tokens of kind `t` in a token list. -/
def countType (t : TokenEnum) : List BrainfuckToken → Nat
  | [] => 0
  | tok :: rest => (if tok.type = t then 1 else 0) + countType t rest

/-- No prefix closes more loops than it has opened: under the stack
discipline, every `LOOP_END` finds an open `LOOP_START` to close. -/
def prefixOk (toks : List BrainfuckToken) : Prop :=
  ∀ n, n ≤ toks.length →
    countType .LOOP_END (toks.take n) ≤ countType .LOOP_START (toks.take n)

instance (toks : List BrainfuckToken) : Decidable (prefixOk toks) :=
  Nat.decidableBallLE _ _

/-- Bracket balance as the spec uses it: every `LOOP_END` closes an open
`LOOP_START` and no `LOOP_START` stays open at the end. -/
def bracketBalanced (toks : List BrainfuckToken) : Prop :=
  prefixOk toks ∧
    countType .LOOP_START toks = countType .LOOP_END toks

/-- Some `LOOP_END` is reached with no `LOOP_START` open (a pop from an
empty stack). -/
def hasUnmatchedLoopEnd (toks : List BrainfuckToken) : Prop :=
  ¬ prefixOk toks

instance (toks : List BrainfuckToken) : Decidable (bracketBalanced toks) :=
  inferInstanceAs (Decidable (_ ∧ _))

instance (toks : List BrainfuckToken) : Decidable (hasUnmatchedLoopEnd toks) :=
  inferInstanceAs (Decidable (¬ _))

/-! ## Validator lemmas -/

theorem validateLoop_ok_length :
    ∀ (toks : List BrainfuckToken) (stack : List Nat) (i : Nat)
      (stack' : List Nat),
    validateLoop stack i toks = .ok stack' →
    stack'.length + countType .LOOP_END toks =
      stack.length + countType .LOOP_START toks := by
  intro toks
  induction toks with
  | nil =>
    intro stack i stack' h
    simp only [validateLoop] at h
    cases h
    simp [countType]
  | cons t rest ih =>
    intro stack i stack' h
    cases ht : t.type with
    | LOOP_START =>
      simp only [validateLoop, ht] at h
      have := ih (i :: stack) (i + 1) stack' h
      simp only [countType, ht, List.length_cons] at this ⊢
      simp at this ⊢
      omega
    | LOOP_END =>
      simp only [validateLoop, ht] at h
      cases stack with
      | nil => simp at h
      | cons top s =>
        have := ih s (i + 1) stack' h
        simp only [countType, ht, List.length_cons] at this ⊢
        simp at this ⊢
        omega
    | INCREMENT_POINTER =>
      simp only [validateLoop, ht] at h
      have := ih stack (i + 1) stack' h
      simp only [countType, ht] at this ⊢
      simp at this ⊢
      omega
    | DECREMENT_POINTER =>
      simp only [validateLoop, ht] at h
      have := ih stack (i + 1) stack' h
      simp only [countType, ht] at this ⊢
      simp at this ⊢
      omega
    | INCREMENT_BYTE =>
      simp only [validateLoop, ht] at h
      have := ih stack (i + 1) stack' h
      simp only [countType, ht] at this ⊢
      simp at this ⊢
      omega
    | DECREMENT_BYTE =>
      simp only [validateLoop, ht] at h
      have := ih stack (i + 1) stack' h
      simp only [countType, ht] at this ⊢
      simp at this ⊢
      omega
    | OUTPUT_BYTE =>
      simp only [validateLoop, ht] at h
      have := ih stack (i + 1) stack' h
      simp only [countType, ht] at this ⊢
      simp at this ⊢
      omega
    | INPUT_BYTE =>
      simp only [validateLoop, ht] at h
      have := ih stack (i + 1) stack' h
      simp only [countType, ht] at this ⊢
      simp at this ⊢
      omega

theorem validateLoop_cons_other {t : BrainfuckToken} (rest : List BrainfuckToken)
    (stack : List Nat) (i : Nat)
    (h1 : t.type ≠ .LOOP_START) (h2 : t.type ≠ .LOOP_END) :
    validateLoop stack i (t :: rest) = validateLoop stack (i + 1) rest := by
  cases ht : t.type <;> simp_all [validateLoop]

theorem calcLoop_cons_other {t : BrainfuckToken} (rest : List BrainfuckToken)
    (jt : List (Nat × Nat)) (stack : List Nat) (i : Nat)
    (h1 : t.type ≠ .LOOP_START) (h2 : t.type ≠ .LOOP_END) :
    calcLoop jt stack i (t :: rest) = calcLoop jt stack (i + 1) rest := by
  cases ht : t.type <;> simp_all [calcLoop]

theorem countType_cons_self {tok : BrainfuckToken} {t : TokenEnum}
    (rest : List BrainfuckToken) (h : tok.type = t) :
    countType t (tok :: rest) = countType t rest + 1 := by
  simp [countType, h]
  omega

theorem countType_cons_ne {tok : BrainfuckToken} {t : TokenEnum}
    (rest : List BrainfuckToken) (h : tok.type ≠ t) :
    countType t (tok :: rest) = countType t rest := by
  simp [countType, h]

theorem validateLoop_ok_of_prefix :
    ∀ (toks : List BrainfuckToken) (stack : List Nat) (i : Nat),
    (∀ n, n ≤ toks.length →
      countType .LOOP_END (toks.take n) ≤
        stack.length + countType .LOOP_START (toks.take n)) →
    ∃ stack', validateLoop stack i toks = .ok stack' := by
  intro toks
  induction toks with
  | nil => intro stack i _; exact ⟨stack, rfl⟩
  | cons t rest ih =>
    intro stack i hpre
    have hpre' : ∀ n, n ≤ rest.length →
        countType .LOOP_END ((t :: rest).take (n + 1)) ≤
          stack.length + countType .LOOP_START ((t :: rest).take (n + 1)) := by
      intro n hn
      exact hpre (n + 1) (by simp; omega)
    by_cases hLS : t.type = .LOOP_START
    · simp only [validateLoop, hLS]
      apply ih (i :: stack) (i + 1)
      intro n hn
      have := hpre' n hn
      rw [List.take_succ_cons, countType_cons_ne _ (by rw [hLS]; decide),
        countType_cons_self _ hLS] at this
      simp only [List.length_cons]
      omega
    · by_cases hLE : t.type = .LOOP_END
      · simp only [validateLoop, hLE]
        cases stack with
        | nil =>
          exfalso
          have := hpre 1 (by simp only [List.length_cons]; omega)
          rw [List.take_succ_cons, List.take_zero,
            countType_cons_self _ hLE,
            countType_cons_ne _ (by rw [hLE]; decide)] at this
          simp [countType] at this
        | cons top s =>
          apply ih s (i + 1)
          intro n hn
          have := hpre' n hn
          rw [List.take_succ_cons, countType_cons_self _ hLE,
            countType_cons_ne _ (by rw [hLE]; decide)] at this
          simp only [List.length_cons] at this
          omega
      · rw [validateLoop_cons_other rest stack i hLS hLE]
        apply ih stack (i + 1)
        intro n hn
        have := hpre' n hn
        rw [List.take_succ_cons, countType_cons_ne _ hLS,
          countType_cons_ne _ hLE] at this
        exact this

theorem validateLoop_error_of_violation :
    ∀ (toks : List BrainfuckToken) (stack : List Nat) (i : Nat),
    (∃ n, n ≤ toks.length ∧
      stack.length + countType .LOOP_START (toks.take n) <
        countType .LOOP_END (toks.take n)) →
    validateLoop stack i toks = .error .indexError := by
  intro toks
  induction toks with
  | nil =>
    intro stack i ⟨n, hn, hlt⟩
    simp only [List.length_nil, Nat.le_zero] at hn
    subst hn
    simp [countType] at hlt
  | cons t rest ih =>
    intro stack i ⟨n, hn, hlt⟩
    cases n with
    | zero => simp [countType] at hlt
    | succ m =>
      rw [List.take_succ_cons] at hlt
      by_cases hLS : t.type = .LOOP_START
      · simp only [validateLoop, hLS]
        apply ih (i :: stack) (i + 1)
        refine ⟨m, by simpa using hn, ?_⟩
        rw [countType_cons_self _ hLS,
          countType_cons_ne _ (by rw [hLS]; decide)] at hlt
        simp only [List.length_cons]
        omega
      · by_cases hLE : t.type = .LOOP_END
        · simp only [validateLoop, hLE]
          cases stack with
          | nil => rfl
          | cons top s =>
            apply ih s (i + 1)
            refine ⟨m, by simpa using hn, ?_⟩
            rw [countType_cons_self _ hLE,
              countType_cons_ne _ (by rw [hLE]; decide)] at hlt
            simp only [List.length_cons] at hlt
            omega
        · rw [validateLoop_cons_other rest stack i hLS hLE]
          apply ih stack (i + 1)
          refine ⟨m, by simpa using hn, ?_⟩
          rw [countType_cons_ne _ hLS, countType_cons_ne _ hLE] at hlt
          exact hlt

theorem calcLoop_ok_of_prefix :
    ∀ (toks : List BrainfuckToken) (jt : List (Nat × Nat))
      (stack : List Nat) (i : Nat),
    (∀ n, n ≤ toks.length →
      countType .LOOP_END (toks.take n) ≤
        stack.length + countType .LOOP_START (toks.take n)) →
    ∃ jt', calcLoop jt stack i toks = .ok jt' := by
  intro toks
  induction toks with
  | nil => intro jt stack i _; exact ⟨jt, rfl⟩
  | cons t rest ih =>
    intro jt stack i hpre
    have hpre' : ∀ n, n ≤ rest.length →
        countType .LOOP_END ((t :: rest).take (n + 1)) ≤
          stack.length + countType .LOOP_START ((t :: rest).take (n + 1)) := by
      intro n hn
      exact hpre (n + 1) (by simp; omega)
    by_cases hLS : t.type = .LOOP_START
    · simp only [calcLoop, hLS]
      apply ih jt (i :: stack) (i + 1)
      intro n hn
      have := hpre' n hn
      rw [List.take_succ_cons, countType_cons_ne _ (by rw [hLS]; decide),
        countType_cons_self _ hLS] at this
      simp only [List.length_cons]
      omega
    · by_cases hLE : t.type = .LOOP_END
      · simp only [calcLoop, hLE]
        cases stack with
        | nil =>
          exfalso
          have := hpre 1 (by simp only [List.length_cons]; omega)
          rw [List.take_succ_cons, List.take_zero,
            countType_cons_self _ hLE,
            countType_cons_ne _ (by rw [hLE]; decide)] at this
          simp [countType] at this
        | cons top s =>
          apply ih _ s (i + 1)
          intro n hn
          have := hpre' n hn
          rw [List.take_succ_cons, countType_cons_self _ hLE,
            countType_cons_ne _ (by rw [hLE]; decide)] at this
          simp only [List.length_cons] at this
          omega
      · rw [calcLoop_cons_other rest jt stack i hLS hLE]
        apply ih jt stack (i + 1)
        intro n hn
        have := hpre' n hn
        rw [List.take_succ_cons, countType_cons_ne _ hLS,
          countType_cons_ne _ hLE] at this
        exact this

/-! ## Jump-table lemmas -/

/-- Every loop-bracket index of a fully balanced suffix, and every index
pending on the stack, ends up with a jump-table entry. -/
theorem calcLoop_covers :
    ∀ (toks : List BrainfuckToken) (jt : List (Nat × Nat)) (stack : List Nat)
      (i : Nat) (jt' : List (Nat × Nat)),
    calcLoop jt stack i toks = .ok jt' →
    countType .LOOP_END toks = countType .LOOP_START toks + stack.length →
    (∀ k, k ∈ stack → (dlookup k jt').isSome) ∧
    (∀ k, (dlookup k jt).isSome → (dlookup k jt').isSome) ∧
    (∀ j t, toks.get? j = some t →
      (t.type = .LOOP_START ∨ t.type = .LOOP_END) →
      (dlookup (i + j) jt').isSome) := by
  intro toks
  induction toks with
  | nil =>
    intro jt stack i jt' h hcount
    simp only [calcLoop] at h
    cases h
    simp only [countType, List.length_nil] at hcount
    have hstack : stack = [] := List.length_eq_zero.mp (by omega)
    subst hstack
    refine ⟨by simp, fun k hk => hk, by simp⟩
  | cons t rest ih =>
    intro jt stack i jt' h hcount
    by_cases hLS : t.type = .LOOP_START
    · simp only [calcLoop, hLS] at h
      rw [countType_cons_self _ hLS,
        countType_cons_ne _ (by rw [hLS]; decide)] at hcount
      have hc' : countType .LOOP_END rest =
          countType .LOOP_START rest + (i :: stack).length := by
        simp only [List.length_cons]; omega
      obtain ⟨ih1, ih2, ih3⟩ := ih jt (i :: stack) (i + 1) jt' h hc'
      refine ⟨fun k hk => ih1 k (List.mem_cons_of_mem _ hk), ih2, ?_⟩
      intro j tj hj htj
      cases j with
      | zero =>
        simpa using ih1 i (List.mem_cons_self _ _)
      | succ j' =>
        have := ih3 j' tj (by simpa using hj) htj
        have harith : i + (j' + 1) = i + 1 + j' := by omega
        rwa [harith]
    · by_cases hLE : t.type = .LOOP_END
      · simp only [calcLoop, hLE] at h
        cases stack with
        | nil => simp at h
        | cons top s =>
          rw [countType_cons_self _ hLE,
            countType_cons_ne _ (by rw [hLE]; decide)] at hcount
          have hc' : countType .LOOP_END rest =
              countType .LOOP_START rest + s.length := by
            simp only [List.length_cons] at hcount; omega
          obtain ⟨ih1, ih2, ih3⟩ :=
            ih (dictSet (dictSet jt i top) top (i + 1)) s (i + 1) jt' h hc'
          have htop : (dlookup top jt').isSome := by
            apply ih2
            simp [dlookup_dictSet_self]
          have hi : (dlookup i jt').isSome := by
            apply ih2
            by_cases hti : top = i
            · subst hti; simp [dlookup_dictSet_self]
            · rw [dlookup_dictSet_ne _ top i (i + 1) (fun h => hti h.symm)]
              simp [dlookup_dictSet_self]
          refine ⟨?_, ?_, ?_⟩
          · intro k hk
            rcases List.mem_cons.mp hk with rfl | hk'
            · exact htop
            · exact ih1 k hk'
          · intro k hk
            exact ih2 k (isSome_dlookup_dictSet _ _ _ _
              (isSome_dlookup_dictSet _ _ _ _ hk))
          · intro j tj hj htj
            cases j with
            | zero => simpa using hi
            | succ j' =>
              have := ih3 j' tj (by simpa using hj) htj
              have harith : i + (j' + 1) = i + 1 + j' := by omega
              rwa [harith]
      · rw [calcLoop_cons_other rest jt stack i hLS hLE] at h
        rw [countType_cons_ne _ hLS, countType_cons_ne _ hLE] at hcount
        obtain ⟨ih1, ih2, ih3⟩ := ih jt stack (i + 1) jt' h hcount
        refine ⟨ih1, ih2, ?_⟩
        intro j tj hj htj
        cases j with
        | zero =>
          exfalso
          simp only [List.get?] at hj
          cases hj
          rcases htj with h1 | h1
          · exact hLS h1
          · exact hLE h1
        | succ j' =>
          have := ih3 j' tj (by simpa using hj) htj
          have harith : i + (j' + 1) = i + 1 + j' := by omega
          rwa [harith]

/-- Spec-side matching discipline, per the spec's words: walk the sequence
with a stack of pending `LOOP_START` indices; each `LOOP_END` closes the most
recently opened pending `LOOP_START` (LIFO), yielding the matched pair
`(start index, end index)`. An unmatched `LOOP_END` yields no pair. -/
def lifoPairsLoop : List Nat → List (Nat × Nat) → Nat → List BrainfuckToken →
    List (Nat × Nat)
  | _, acc, _, [] => acc
  | stack, acc, i, t :: rest =>
    match t.type with
    | .LOOP_START => lifoPairsLoop (i :: stack) acc (i + 1) rest
    | .LOOP_END =>
      match stack with
      | [] => lifoPairsLoop [] acc (i + 1) rest
      | top :: s => lifoPairsLoop s (acc ++ [(top, i)]) (i + 1) rest
    | _ => lifoPairsLoop stack acc (i + 1) rest

/-- The LIFO-matched `(LoopStart, LoopEnd)` index pairs of a sequence. -/
def lifoMatchedPairs (toks : List BrainfuckToken) : List (Nat × Nat) :=
  lifoPairsLoop [] [] 0 toks

/-- What `_calc_jump_table` records for each LIFO-matched pair `(a, b)`:
`jump_table[a] = b + 1` (one past the matching `LOOP_END`) and
`jump_table[b] = a` (the matching `LOOP_START` itself). -/
theorem calcLoop_pairs :
    ∀ (toks : List BrainfuckToken) (jt acc : List (Nat × Nat))
      (stack : List Nat) (i : Nat) (jt' : List (Nat × Nat)),
    calcLoop jt stack i toks = .ok jt' →
    (∀ a b, (a, b) ∈ acc →
      dlookup a jt = some (b + 1) ∧ dlookup b jt = some a) →
    (∀ k, i ≤ k → dlookup k jt = (none : Option Nat)) →
    (∀ k, k ∈ stack → k < i ∧ dlookup k jt = (none : Option Nat)) →
    stack.Pairwise (fun a b => b < a) →
    ∀ a b, (a, b) ∈ lifoPairsLoop stack acc i toks →
      dlookup a jt' = some (b + 1) ∧ dlookup b jt' = some a := by
  intro toks
  induction toks with
  | nil =>
    intro jt acc stack i jt' h hacc _ _ _ a b hab
    simp only [calcLoop] at h
    cases h
    exact hacc a b hab
  | cons t rest ih =>
    intro jt acc stack i jt' h hacc hfresh hstack hpw a b hab
    by_cases hLS : t.type = .LOOP_START
    · simp only [calcLoop, hLS] at h
      simp only [lifoPairsLoop, hLS] at hab
      refine ih jt acc (i :: stack) (i + 1) jt' h hacc ?_ ?_ ?_ a b hab
      · intro k hk
        exact hfresh k (by omega)
      · intro k hk
        rcases List.mem_cons.mp hk with rfl | hk'
        · exact ⟨by omega, hfresh k (le_refl k)⟩
        · obtain ⟨h1, h2⟩ := hstack k hk'
          exact ⟨by omega, h2⟩
      · rw [List.pairwise_cons]
        exact ⟨fun k hk => (hstack k hk).1, hpw⟩
    · by_cases hLE : t.type = .LOOP_END
      · simp only [calcLoop, hLE] at h
        simp only [lifoPairsLoop, hLE] at hab
        cases stack with
        | nil => simp at h
        | cons top s =>
          obtain ⟨htopi, htopnone⟩ := hstack top (List.mem_cons_self _ _)
          have hine : top ≠ i := by omega
          have hinone : dlookup i jt = none := hfresh i (le_refl i)
          obtain ⟨hpw1, hpw2⟩ := List.pairwise_cons.mp hpw
          refine ih (dictSet (dictSet jt i top) top (i + 1))
            (acc ++ [(top, i)]) s (i + 1) jt' h ?_ ?_ ?_ hpw2 a b hab
          · intro a' b' hab'
            rcases List.mem_append.mp hab' with hold | hnew
            · obtain ⟨ha', hb'⟩ := hacc a' b' hold
              have ha'i : a' ≠ i := fun he => by
                rw [he, hinone] at ha'; cases ha'
              have ha'top : a' ≠ top := fun he => by
                rw [he, htopnone] at ha'; cases ha'
              have hb'i : b' ≠ i := fun he => by
                rw [he, hinone] at hb'; cases hb'
              have hb'top : b' ≠ top := fun he => by
                rw [he, htopnone] at hb'; cases hb'
              constructor
              · rw [dlookup_dictSet_ne _ _ _ _ ha'top,
                  dlookup_dictSet_ne _ _ _ _ ha'i]
                exact ha'
              · rw [dlookup_dictSet_ne _ _ _ _ hb'top,
                  dlookup_dictSet_ne _ _ _ _ hb'i]
                exact hb'
            · have : a' = top ∧ b' = i := by
                simp at hnew; exact hnew
              obtain ⟨rfl, rfl⟩ := this
              constructor
              · rw [dlookup_dictSet_self]
              · rw [dlookup_dictSet_ne _ _ _ _ (Ne.symm hine),
                  dlookup_dictSet_self]
          · intro k hk
            have hki : k ≠ i := by omega
            have hktop : k ≠ top := by omega
            rw [dlookup_dictSet_ne _ _ _ _ hktop,
              dlookup_dictSet_ne _ _ _ _ hki]
            exact hfresh k (by omega)
          · intro k hk
            obtain ⟨hk1, hk2⟩ := hstack k (List.mem_cons_of_mem _ hk)
            have hki : k ≠ i := by omega
            have hktop : k ≠ top := by
              have := hpw1 k hk
              omega
            refine ⟨by omega, ?_⟩
            rw [dlookup_dictSet_ne _ _ _ _ hktop,
              dlookup_dictSet_ne _ _ _ _ hki]
            exact hk2
      · rw [calcLoop_cons_other rest jt stack i hLS hLE] at h
        have hab' : (a, b) ∈ lifoPairsLoop stack acc (i + 1) rest := by
          cases ht : t.type <;> simp_all [lifoPairsLoop]
        refine ih jt acc stack (i + 1) jt' h hacc ?_ ?_ hpw a b hab'
        · intro k hk
          exact hfresh k (by omega)
        · intro k hk
          obtain ⟨h1, h2⟩ := hstack k hk
          exact ⟨by omega, h2⟩

/-! ## Execution invariants -/

/-- All stored cell values lie in `[0, bitwidth)`. -/
def dataInRange (bitwidth : Int) (data : List (Int × Int)) : Prop :=
  ∀ p v, dlookup p data = some v → 0 ≤ v ∧ v < bitwidth

theorem incWrap_range {bitwidth v : Int} (hbw : 1 ≤ bitwidth)
    (h0 : 0 ≤ v) (h1 : v < bitwidth) :
    0 ≤ incWrap bitwidth v ∧ incWrap bitwidth v < bitwidth := by
  unfold incWrap
  split <;> omega

theorem decWrap_range {bitwidth v : Int} (hbw : 1 ≤ bitwidth)
    (h0 : 0 ≤ v) (h1 : v < bitwidth) :
    0 ≤ decWrap bitwidth v ∧ decWrap bitwidth v < bitwidth := by
  unfold decWrap
  split <;> omega

theorem dataInRange_setdefault {bitwidth : Int} {data : List (Int × Int)}
    (hbw : 1 ≤ bitwidth) (hd : dataInRange bitwidth data) (p : Int) :
    dataInRange bitwidth (dictSetdefault data p 0) := by
  intro q v hq
  rcases dlookup_dictSetdefault_cases hq with h | rfl
  · exact hd q v h
  · omega

theorem dataInRange_dictSet {bitwidth : Int} {data : List (Int × Int)}
    {v : Int} (hd : dataInRange bitwidth data) (p : Int)
    (h0 : 0 ≤ v) (h1 : v < bitwidth) :
    dataInRange bitwidth (dictSet data p v) := by
  intro q w hq
  rcases dlookup_dictSet_cases hq with ⟨rfl, rfl⟩ | h
  · exact ⟨h0, h1⟩
  · exact hd q w h

theorem step_preserves_range {I : BrainfuckInterpreter} {st st' : RunState}
    (hbw : 1 ≤ I.bitwidth)
    (hd : dataInRange I.bitwidth st.data)
    (h : step I st = .ok st') :
    dataInRange I.bitwidth st'.data := by
  have hd1 : dataInRange I.bitwidth (dictSetdefault st.data st.pointer 0) :=
    dataInRange_setdefault hbw hd st.pointer
  unfold step at h
  cases hg : I.tokens.get? st.instr with
  | none =>
    rw [hg] at h
    cases h
    exact hd
  | some token =>
    rw [hg] at h
    cases ht : token.type <;> simp only [ht] at h
    case INCREMENT_POINTER => cases h; exact hd1
    case DECREMENT_POINTER => cases h; exact hd1
    case INPUT_BYTE => cases h; exact hd1
    case INCREMENT_BYTE =>
      cases hv : dlookup st.pointer (dictSetdefault st.data st.pointer 0) with
      | none => rw [hv] at h; cases h
      | some v =>
        rw [hv] at h
        cases h
        obtain ⟨h0, h1⟩ := hd1 st.pointer v hv
        obtain ⟨h2, h3⟩ := incWrap_range hbw h0 h1
        exact dataInRange_dictSet hd1 st.pointer h2 h3
    case DECREMENT_BYTE =>
      cases hv : dlookup st.pointer (dictSetdefault st.data st.pointer 0) with
      | none => rw [hv] at h; cases h
      | some v =>
        rw [hv] at h
        cases h
        obtain ⟨h0, h1⟩ := hd1 st.pointer v hv
        obtain ⟨h2, h3⟩ := decWrap_range hbw h0 h1
        exact dataInRange_dictSet hd1 st.pointer h2 h3
    case OUTPUT_BYTE =>
      have hd2 : dataInRange I.bitwidth
          (dictSetdefault (dictSetdefault st.data st.pointer 0) st.pointer 0) :=
        dataInRange_setdefault hbw hd1 st.pointer
      cases hv : dlookup st.pointer
          (dictSetdefault (dictSetdefault st.data st.pointer 0) st.pointer 0) with
      | none => rw [hv] at h; cases h
      | some v =>
        simp only [hv] at h
        by_cases hr : 0 ≤ v ∧ v ≤ 1114111
        · rw [if_pos hr] at h; cases h; exact hd2
        · rw [if_neg hr] at h; cases h
    case LOOP_START =>
      cases hv : dlookup st.pointer (dictSetdefault st.data st.pointer 0) with
      | none => rw [hv] at h; cases h
      | some v =>
        simp only [hv] at h
        by_cases hz : v = 0
        · rw [if_pos hz] at h
          cases hjt : dlookup st.instr I.jump_table with
          | none => rw [hjt] at h; cases h
          | some target => rw [hjt] at h; cases h; exact hd1
        · rw [if_neg hz] at h; cases h; exact hd1
    case LOOP_END =>
      cases hv : dlookup st.pointer (dictSetdefault st.data st.pointer 0) with
      | none => rw [hv] at h; cases h
      | some v =>
        simp only [hv] at h
        by_cases hz : v = 0
        · rw [if_pos hz] at h; cases h; exact hd1
        · rw [if_neg hz] at h
          cases hjt : dlookup st.instr I.jump_table with
          | none => rw [hjt] at h; cases h
          | some target => rw [hjt] at h; cases h; exact hd1

theorem step_total {I : BrainfuckInterpreter} {st : RunState}
    (hbw : 1 ≤ I.bitwidth) (hbw2 : I.bitwidth ≤ 1114112)
    (hd : dataInRange I.bitwidth st.data)
    (hjt : ∀ j t, I.tokens.get? j = some t →
      (t.type = .LOOP_START ∨ t.type = .LOOP_END) →
      (dlookup j I.jump_table).isSome) :
    ∃ st', step I st = .ok st' := by
  have hd1 : dataInRange I.bitwidth (dictSetdefault st.data st.pointer 0) :=
    dataInRange_setdefault hbw hd st.pointer
  have hcur : dlookup st.pointer (dictSetdefault st.data st.pointer 0) =
      some ((dlookup st.pointer st.data).getD 0) :=
    dlookup_dictSetdefault_self st.data st.pointer 0
  unfold step
  cases hg : I.tokens.get? st.instr with
  | none => exact ⟨st, rfl⟩
  | some token =>
    cases ht : token.type <;> simp only [ht]
    case INCREMENT_POINTER => exact ⟨_, rfl⟩
    case DECREMENT_POINTER => exact ⟨_, rfl⟩
    case INPUT_BYTE => exact ⟨_, rfl⟩
    case INCREMENT_BYTE => rw [hcur]; exact ⟨_, rfl⟩
    case DECREMENT_BYTE => rw [hcur]; exact ⟨_, rfl⟩
    case OUTPUT_BYTE =>
      have hcur2 : dlookup st.pointer
          (dictSetdefault (dictSetdefault st.data st.pointer 0) st.pointer 0) =
          some ((dlookup st.pointer (dictSetdefault st.data st.pointer 0)).getD 0) :=
        dlookup_dictSetdefault_self _ st.pointer 0
      rw [hcur, Option.getD_some] at hcur2
      simp only [hcur2]
      have hrange : 0 ≤ (dlookup st.pointer st.data).getD 0 ∧
          (dlookup st.pointer st.data).getD 0 ≤ 1114111 := by
        cases hp : dlookup st.pointer st.data with
        | none => simp
        | some v =>
          obtain ⟨h0, h1⟩ := hd st.pointer v hp
          simp only [Option.getD_some]
          omega
      rw [if_pos hrange]
      exact ⟨_, rfl⟩
    case LOOP_START =>
      simp only [hcur]
      by_cases hz : (dlookup st.pointer st.data).getD 0 = 0
      · rw [if_pos hz]
        have := hjt st.instr token hg (Or.inl ht)
        cases hjtv : dlookup st.instr I.jump_table with
        | none => rw [hjtv] at this; cases this
        | some target => exact ⟨_, rfl⟩
      · rw [if_neg hz]
        exact ⟨_, rfl⟩
    case LOOP_END =>
      simp only [hcur]
      by_cases hz : (dlookup st.pointer st.data).getD 0 = 0
      · rw [if_pos hz]
        exact ⟨_, rfl⟩
      · rw [if_neg hz]
        have := hjt st.instr token hg (Or.inr ht)
        cases hjtv : dlookup st.instr I.jump_table with
        | none => rw [hjtv] at this; cases this
        | some target => exact ⟨_, rfl⟩

theorem step_no_valueError {I : BrainfuckInterpreter} {st : RunState}
    (hbw2 : I.bitwidth ≤ 1114112)
    (hd : dataInRange I.bitwidth st.data) :
    step I st ≠ .error .valueError := by
  unfold step
  cases hg : I.tokens.get? st.instr with
  | none => intro h; cases h
  | some token =>
    cases ht : token.type <;> simp only [ht]
    case INCREMENT_POINTER => intro h; cases h
    case DECREMENT_POINTER => intro h; cases h
    case INPUT_BYTE => intro h; cases h
    case INCREMENT_BYTE =>
      cases hv : dlookup st.pointer (dictSetdefault st.data st.pointer 0) <;>
        intro h <;> cases h
    case DECREMENT_BYTE =>
      cases hv : dlookup st.pointer (dictSetdefault st.data st.pointer 0) <;>
        intro h <;> cases h
    case OUTPUT_BYTE =>
      intro h
      cases hv : dlookup st.pointer
          (dictSetdefault (dictSetdefault st.data st.pointer 0) st.pointer 0) with
      | none => rw [hv] at h; cases h
      | some v =>
        have hrange : 0 ≤ v ∧ v ≤ 1114111 := by
          rcases dlookup_dictSetdefault_cases hv with h1 | rfl
          · rcases dlookup_dictSetdefault_cases h1 with h2 | rfl
            · obtain ⟨h0, hlt⟩ := hd st.pointer v h2
              omega
            · omega
          · omega
        simp only [hv] at h
        rw [if_pos hrange] at h
        cases h
    case LOOP_START =>
      intro h
      cases hv : dlookup st.pointer (dictSetdefault st.data st.pointer 0) with
      | none => rw [hv] at h; cases h
      | some v =>
        simp only [hv] at h
        by_cases hz : v = 0
        · rw [if_pos hz] at h
          cases hjtv : dlookup st.instr I.jump_table with
          | none => rw [hjtv] at h; cases h
          | some target => rw [hjtv] at h; cases h
        · rw [if_neg hz] at h; cases h
    case LOOP_END =>
      intro h
      cases hv : dlookup st.pointer (dictSetdefault st.data st.pointer 0) with
      | none => rw [hv] at h; cases h
      | some v =>
        simp only [hv] at h
        by_cases hz : v = 0
        · rw [if_pos hz] at h; cases h
        · rw [if_neg hz] at h
          cases hjtv : dlookup st.instr I.jump_table with
          | none => rw [hjtv] at h; cases h
          | some target => rw [hjtv] at h; cases h

theorem stepN_preserves_range {I : BrainfuckInterpreter} (hbw : 1 ≤ I.bitwidth) :
    ∀ (n : Nat) (st st' : RunState), dataInRange I.bitwidth st.data →
    stepN I n st = .ok st' → dataInRange I.bitwidth st'.data := by
  intro n
  induction n with
  | zero =>
    intro st st' hd h
    cases h
    exact hd
  | succ n ih =>
    intro st st' hd h
    simp only [stepN] at h
    by_cases hlt : st.instr < I.tokens.length
    · rw [if_pos hlt] at h
      cases hs : step I st with
      | error e => simp only [hs] at h; cases h
      | ok st1 =>
        simp only [hs] at h
        exact ih st1 st' (step_preserves_range hbw hd hs) h
    · rw [if_neg hlt] at h
      cases h
      exact hd

theorem runFuel_no_error {I : BrainfuckInterpreter}
    (hbw : 1 ≤ I.bitwidth) (hbw2 : I.bitwidth ≤ 1114112)
    (hjt : ∀ j t, I.tokens.get? j = some t →
      (t.type = .LOOP_START ∨ t.type = .LOOP_END) →
      (dlookup j I.jump_table).isSome) :
    ∀ (fuel : Nat) (st : RunState), dataInRange I.bitwidth st.data →
    ∀ e, runFuel I fuel st ≠ some (.error e) := by
  intro fuel
  induction fuel with
  | zero => intro st _ e h; cases h
  | succ fuel ih =>
    intro st hd e h
    simp only [runFuel] at h
    by_cases hlt : st.instr < I.tokens.length
    · rw [if_pos hlt] at h
      obtain ⟨st', hs⟩ := step_total hbw hbw2 hd hjt
      simp only [hs] at h
      exact ih st' (step_preserves_range hbw hd hs) e h
    · rw [if_neg hlt] at h
      simp at h

theorem runFuel_no_valueError {I : BrainfuckInterpreter}
    (hbw : 1 ≤ I.bitwidth) (hbw2 : I.bitwidth ≤ 1114112) :
    ∀ (fuel : Nat) (st : RunState), dataInRange I.bitwidth st.data →
    runFuel I fuel st ≠ some (.error .valueError) := by
  intro fuel
  induction fuel with
  | zero => intro st _ h; cases h
  | succ fuel ih =>
    intro st hd h
    simp only [runFuel] at h
    by_cases hlt : st.instr < I.tokens.length
    · rw [if_pos hlt] at h
      cases hs : step I st with
      | error e =>
        simp only [hs] at h
        have he : e = .valueError := by
          simpa using h
        subst he
        exact step_no_valueError hbw2 hd hs
      | ok st1 =>
        simp only [hs] at h
        exact ih st1 (step_preserves_range hbw hd hs) h
    · rw [if_neg hlt] at h
      simp at h

/-! ## Constructor characterization -/

theorem mkInterpreter_eq (toks : List BrainfuckToken) (bits : Int) :
    mkInterpreter toks bits =
      match validate toks with
      | .error e => .error e
      | .ok _ =>
        match calc_jump_table toks with
        | .error e => .error e
        | .ok jt =>
          if bits = 8 ∨ bits = 16 ∨ bits = 32 ∨ bits = 64 then
            .ok ⟨toks, jt, bits, 2 ^ bits.toNat⟩
          else
            .ok ⟨toks, jt, 8, 256⟩ := by
  unfold mkInterpreter
  cases validate toks <;> cases calc_jump_table toks <;> rfl

theorem mkInterpreter_inv {toks : List BrainfuckToken} {bits : Int}
    {I : BrainfuckInterpreter} (h : mkInterpreter toks bits = .ok I) :
    (∃ b, validate toks = .ok b) ∧
    calc_jump_table toks = .ok I.jump_table ∧
    I.tokens = toks ∧ 1 ≤ I.bitwidth ∧
    ((bits = 8 ∨ bits = 16 ∨ bits = 32 ∨ bits = 64) →
      I.bits = bits ∧ I.bitwidth = 2 ^ bits.toNat) ∧
    (¬(bits = 8 ∨ bits = 16 ∨ bits = 32 ∨ bits = 64) →
      I.bits = 8 ∧ I.bitwidth = 256) := by
  rw [mkInterpreter_eq] at h
  cases hv : validate toks with
  | error e => simp only [hv] at h; cases h
  | ok b =>
    simp only [hv] at h
    cases hc : calc_jump_table toks with
    | error e => simp only [hc] at h; cases h
    | ok jt =>
      simp only [hc] at h
      by_cases hb : bits = 8 ∨ bits = 16 ∨ bits = 32 ∨ bits = 64
      · rw [if_pos hb] at h
        cases h
        have hpow : (0 : Int) < 2 ^ bits.toNat := pow_pos (by norm_num) _
        refine ⟨⟨b, rfl⟩, rfl, rfl, ?_, fun _ => ⟨rfl, rfl⟩,
          fun hnb => absurd hb hnb⟩
        show (1 : Int) ≤ 2 ^ bits.toNat
        omega
      · rw [if_neg hb] at h
        cases h
        refine ⟨⟨b, rfl⟩, rfl, rfl, ?_, fun hb' => absurd hb' hb,
          fun _ => ⟨rfl, rfl⟩⟩
        show (1 : Int) ≤ 256
        norm_num

/-! ## Bridges between `validate` and the counting conditions -/

theorem validate_error_of_unmatched {toks : List BrainfuckToken}
    (h : hasUnmatchedLoopEnd toks) :
    validate toks = .error .indexError := by
  unfold hasUnmatchedLoopEnd prefixOk at h
  push_neg at h
  obtain ⟨n, hn, hlt⟩ := h
  have herr : validateLoop [] 0 toks = .error .indexError := by
    apply validateLoop_error_of_violation
    exact ⟨n, hn, by simpa using hlt⟩
  unfold validate
  rw [herr]
  rfl

theorem validate_ok_true_of_balanced {toks : List BrainfuckToken}
    (h : bracketBalanced toks) :
    validate toks = .ok true := by
  obtain ⟨hpre, hbal⟩ := h
  obtain ⟨stack', hs⟩ := validateLoop_ok_of_prefix toks [] 0
    (fun n hn => by simpa using hpre n hn)
  have hlen := validateLoop_ok_length toks [] 0 stack' hs
  simp only [List.length_nil, Nat.zero_add] at hlen
  have : stack'.length = 0 := by omega
  have hnil : stack' = [] := List.length_eq_zero.mp this
  subst hnil
  unfold validate
  rw [hs]
  rfl

theorem validate_ok_false_of_pending {toks : List BrainfuckToken}
    (hpre : prefixOk toks)
    (hlt : countType .LOOP_END toks < countType .LOOP_START toks) :
    validate toks = .ok false := by
  obtain ⟨stack', hs⟩ := validateLoop_ok_of_prefix toks [] 0
    (fun n hn => by simpa using hpre n hn)
  have hlen := validateLoop_ok_length toks [] 0 stack' hs
  simp only [List.length_nil, Nat.zero_add] at hlen
  have hne : stack' ≠ [] := by
    intro hnil
    subst hnil
    simp at hlen
    omega
  unfold validate
  rw [hs]
  cases stack' with
  | nil => exact absurd rfl hne
  | cons a s => rfl

theorem validate_ok_balance {toks : List BrainfuckToken}
    (h : validate toks = .ok true) :
    countType .LOOP_END toks = countType .LOOP_START toks := by
  unfold validate at h
  cases hv : validateLoop [] 0 toks with
  | error e => rw [hv] at h; cases h
  | ok stack' =>
    rw [hv] at h
    have hemp : stack' = [] := by
      cases stack' with
      | nil => rfl
      | cons a s => simp [Except.map] at h
    subst hemp
    have := validateLoop_ok_length toks [] 0 [] hv
    simpa using this

theorem mkInterpreter_ok_of_prefix {toks : List BrainfuckToken} {bits : Int}
    {b : Bool} (hpre : prefixOk toks) (hv : validate toks = .ok b) :
    ∃ I, mkInterpreter toks bits = .ok I := by
  obtain ⟨jt, hc⟩ := calcLoop_ok_of_prefix toks [] [] 0
    (fun n hn => by simpa using hpre n hn)
  have hc' : calc_jump_table toks = .ok jt := hc
  rw [mkInterpreter_eq]
  simp only [hv, hc']
  by_cases hb : bits = 8 ∨ bits = 16 ∨ bits = 32 ∨ bits = 64
  · rw [if_pos hb]; exact ⟨_, rfl⟩
  · rw [if_neg hb]; exact ⟨_, rfl⟩

/-! ## Claims -/

/-- C1 (counterexample): the claim says `jump_table[i] = j` and
`jump_table[j] = i + 1` for a matched pair `(i, j)`. For the two-token
program `[]` the LIFO-matched pair is `(0, 1)`, yet the code records
`jump_table[0] = 2` and `jump_table[1] = 0`, so neither claimed equation
holds. -/
theorem C1_jump_table_counterexample :
    (0, 1) ∈ lifoMatchedPairs [⟨.LOOP_START, 0⟩, ⟨.LOOP_END, 1⟩] ∧
    calc_jump_table [⟨.LOOP_START, 0⟩, ⟨.LOOP_END, 1⟩] =
      .ok [(1, 0), (0, 2)] ∧
    ¬(dlookup 0 [((1 : Nat), (0 : Nat)), (0, 2)] = some 1 ∧
      dlookup 1 [((1 : Nat), (0 : Nat)), (0, 2)] = some (0 + 1)) := by
  decide

/-- C1 (amended): for every LIFO-matched pair `(i, j)` with `i` a LoopStart
and `j` its LoopEnd, the jump table built at construction satisfies
`jump_table[i] = j + 1` (one past the LoopEnd) and `jump_table[j] = i`
(the LoopStart itself) — the transposed convention of what the claim
states. -/
theorem C1_jump_table_amended (toks : List BrainfuckToken)
    (jt : List (Nat × Nat)) (i j : Nat)
    (hcalc : calc_jump_table toks = .ok jt)
    (hpair : (i, j) ∈ lifoMatchedPairs toks) :
    dlookup i jt = some (j + 1) ∧ dlookup j jt = some i := by
  refine calcLoop_pairs toks [] [] [] 0 jt hcalc ?_ ?_ ?_ ?_ i j hpair
  · intro a b hab
    cases hab
  · intro k _
    rfl
  · intro k hk
    cases hk
  · exact List.Pairwise.nil

theorem C1_jump_table_amended_witness :
    dlookup 0 [((1 : Nat), (0 : Nat)), (0, 2)] = some 2 ∧
    dlookup 1 [((1 : Nat), (0 : Nat)), (0, 2)] = some 0 :=
  C1_jump_table_amended [⟨.LOOP_START, 0⟩, ⟨.LOOP_END, 1⟩]
    [(1, 0), (0, 2)] 0 1 (by decide) (by decide)

/-- C2 (counterexample): the single-token program `[` (an unmatched
trailing LoopStart) constructs successfully, but `run()` raises `KeyError`
at the very first step: the `LOOP_START` at index 0 has no jump-table
entry and the cell under the pointer is 0, so `self._jump_table[0]`
fails. Construction succeeding does not make `run()` total. -/
theorem C2_run_total_counterexample :
    mkInterpreter [⟨.LOOP_START, 0⟩] 8 =
      .ok ⟨[⟨.LOOP_START, 0⟩], [], 8, 256⟩ ∧
    runFuel ⟨[⟨.LOOP_START, 0⟩], [], 8, 256⟩ 10 initState =
      some (.error .keyError) := by
  decide

/-- C2 (amended): `run()` never raises provided construction succeeded,
`validate` additionally returned `true` (no unmatched trailing LoopStart,
so every loop index has a jump-table entry), and the effective modulus is
at most `0x110000` (bit-widths 8 and 16, including the fallback), so every
cell value is a valid `chr` argument: for every fuel bound, execution
either is still running, or has returned an output — never an error. -/
theorem C2_run_total_amended (toks : List BrainfuckToken) (bits : Int)
    (I : BrainfuckInterpreter)
    (hmk : mkInterpreter toks bits = .ok I)
    (hval : validate toks = .ok true)
    (hbw : I.bitwidth ≤ 1114112) :
    ∀ (fuel : Nat) (e : PyError),
      runFuel I fuel initState ≠ some (.error e) := by
  obtain ⟨_, hc, htoks, hbw1, _, _⟩ := mkInterpreter_inv hmk
  have hbal : countType .LOOP_END toks =
      countType .LOOP_START toks + ([] : List Nat).length := by
    simpa using validate_ok_balance hval
  obtain ⟨_, _, hcov⟩ := calcLoop_covers toks [] [] 0 I.jump_table hc hbal
  have hjt : ∀ j t, I.tokens.get? j = some t →
      (t.type = .LOOP_START ∨ t.type = .LOOP_END) →
      (dlookup j I.jump_table).isSome := by
    intro j t hj hloop
    have := hcov j t (by rwa [htoks] at hj) hloop
    simpa using this
  intro fuel e
  exact runFuel_no_error hbw1 hbw hjt fuel initState
    (fun p v hpv => by cases hpv) e

theorem C2_run_total_amended_witness :
    runFuel ⟨[⟨.LOOP_START, 0⟩, ⟨.LOOP_END, 1⟩], [(1, 0), (0, 2)], 8, 256⟩
      10 initState ≠ some (.error .keyError) :=
  C2_run_total_amended [⟨.LOOP_START, 0⟩, ⟨.LOOP_END, 1⟩] 8
    ⟨[⟨.LOOP_START, 0⟩, ⟨.LOOP_END, 1⟩], [(1, 0), (0, 2)], 8, 256⟩
    (by decide) (by decide) (by decide) 10 .keyError

/-- C3: a token sequence with an unmatched LoopEnd (some prefix closes
more loops than it opened) makes interpreter construction raise — the
empty-stack pop in `validate` raises `IndexError` inside `__init__`,
before `run` could execute anything; and for every bracket-balanced
sequence, `validate` returns `true` and construction succeeds. -/
theorem C3_unmatched_loopend_raises :
    (∀ (toks : List BrainfuckToken) (bits : Int),
      hasUnmatchedLoopEnd toks →
      mkInterpreter toks bits = .error .indexError) ∧
    (∀ (toks : List BrainfuckToken) (bits : Int),
      bracketBalanced toks →
      validate toks = .ok true ∧ ∃ I, mkInterpreter toks bits = .ok I) := by
  constructor
  · intro toks bits h
    have hv := validate_error_of_unmatched h
    rw [mkInterpreter_eq, hv]
  · intro toks bits hb
    have hv := validate_ok_true_of_balanced hb
    exact ⟨hv, mkInterpreter_ok_of_prefix hb.1 hv⟩

theorem C3_unmatched_loopend_raises_witness :
    mkInterpreter [⟨.LOOP_END, 0⟩] 8 = .error .indexError ∧
    (validate [⟨.LOOP_START, 0⟩, ⟨.LOOP_END, 1⟩] = .ok true ∧
      ∃ I, mkInterpreter [⟨.LOOP_START, 0⟩, ⟨.LOOP_END, 1⟩] 8 = .ok I) :=
  ⟨C3_unmatched_loopend_raises.1 [⟨.LOOP_END, 0⟩] 8 (by decide),
   C3_unmatched_loopend_raises.2 [⟨.LOOP_START, 0⟩, ⟨.LOOP_END, 1⟩] 8
     (by decide)⟩

/-- C4: when every LoopEnd closes an open LoopStart but at least one
LoopStart stays open at the end, `validate` returns `false`, yet
construction completes without raising — `__init__` discards the boolean
verdict. -/
theorem C4_trailing_loopstart_ignored (toks : List BrainfuckToken)
    (bits : Int) (hpre : prefixOk toks)
    (hlt : countType .LOOP_END toks < countType .LOOP_START toks) :
    validate toks = .ok false ∧ ∃ I, mkInterpreter toks bits = .ok I := by
  have hv := validate_ok_false_of_pending hpre hlt
  exact ⟨hv, mkInterpreter_ok_of_prefix hpre hv⟩

theorem C4_trailing_loopstart_ignored_witness :
    validate [⟨.LOOP_START, 0⟩] = .ok false ∧
    ∃ I, mkInterpreter [⟨.LOOP_START, 0⟩] 8 = .ok I :=
  C4_trailing_loopstart_ignored [⟨.LOOP_START, 0⟩] 8 (by decide) (by decide)

/-- C5: tokenizing `"++>+++++[<+>-]<."` and running at bit-width 8
terminates and outputs exactly one character, with code point 7. -/
theorem C5_scenario_output_seven :
    mkInterpreter (tokenize "++>+++++[<+>-]<.".toList) 8 =
      .ok ⟨tokenize "++>+++++[<+>-]<.".toList, [(13, 8), (8, 14)], 8, 256⟩ ∧
    ∃ out : List Int,
      runFuel ⟨tokenize "++>+++++[<+>-]<.".toList, [(13, 8), (8, 14)], 8, 256⟩
        100 initState = some (.ok out) ∧ out.length = 1 ∧ out = [7] := by
  exact ⟨by decide, [7], by decide, rfl, rfl⟩

/-- C6: during every execution of a constructed interpreter, every value
in the cell store stays in `[0, bitwidth)`; moreover the increment update
wraps `bitwidth - 1` to `0` and the decrement update wraps `0` to
`bitwidth - 1`. -/
theorem C6_cells_in_range (toks : List BrainfuckToken) (bits : Int)
    (I : BrainfuckInterpreter) (hmk : mkInterpreter toks bits = .ok I) :
    (∀ (n : Nat) (st : RunState), stepN I n initState = .ok st →
      ∀ p v, dlookup p st.data = some v → 0 ≤ v ∧ v < I.bitwidth) ∧
    (∀ bw : Int, incWrap bw (bw - 1) = 0) ∧
    (∀ bw : Int, decWrap bw 0 = bw - 1) := by
  obtain ⟨_, _, _, hbw1, _, _⟩ := mkInterpreter_inv hmk
  refine ⟨?_, ?_, ?_⟩
  · intro n st hst p v hpv
    exact stepN_preserves_range hbw1 n initState st
      (fun q w hw => by cases hw) hst p v hpv
  · intro bw
    unfold incWrap
    rw [if_pos (by omega)]
  · intro bw
    unfold decWrap
    rw [if_pos (by omega)]

theorem C6_cells_in_range_witness :
    (0 : Int) ≤ 1 ∧ (1 : Int) <
      (⟨[⟨.INCREMENT_BYTE, 0⟩], [], 8, 256⟩ : BrainfuckInterpreter).bitwidth :=
  (C6_cells_in_range [⟨.INCREMENT_BYTE, 0⟩] 8
    ⟨[⟨.INCREMENT_BYTE, 0⟩], [], 8, 256⟩ (by decide)).1
    1 ⟨0, 1, [(0, 1)], []⟩ (by decide) 0 1 (by decide)

/-- C7: the tokenizer emits exactly one token per recognized-symbol
character, in source order, tagged with its zero-based character offset;
whitespace and unrecognized characters yield no token and no error —
`tokenize` coincides with the enumerate-and-filter characterization. -/
theorem C7_tokenizer_contract (program : List Char) :
    tokenize program = tokenizeSpec program := by
  unfold tokenize tokenizeSpec
  exact tokenizeGo_eq_filterMap program 0

/-- C8: construction with requested bit-width in {8, 16, 32, 64} uses
modulus `2^bits`; any other request silently falls back to 8 bits with
modulus 256, without raising; and at bit-width 16 decrementing a cell
holding 0 yields `2^16 - 1`. -/
theorem C8_bitwidth_fallback :
    (∀ (toks : List BrainfuckToken) (bits : Int) (I : BrainfuckInterpreter),
      mkInterpreter toks bits = .ok I →
      ((bits = 8 ∨ bits = 16 ∨ bits = 32 ∨ bits = 64) →
        I.bits = bits ∧ I.bitwidth = 2 ^ bits.toNat) ∧
      (¬(bits = 8 ∨ bits = 16 ∨ bits = 32 ∨ bits = 64) →
        I.bits = 8 ∧ I.bitwidth = 256)) ∧
    decWrap (2 ^ 16) 0 = 2 ^ 16 - 1 := by
  constructor
  · intro toks bits I hmk
    obtain ⟨_, _, _, _, h1, h2⟩ := mkInterpreter_inv hmk
    exact ⟨h1, h2⟩
  · decide

theorem C8_bitwidth_fallback_witness :
    (⟨[], [], 8, 256⟩ : BrainfuckInterpreter).bits = 8 ∧
    (⟨[], [], 8, 256⟩ : BrainfuckInterpreter).bitwidth = 256 :=
  (C8_bitwidth_fallback.1 [] 7 ⟨[], [], 8, 256⟩ (by decide)).2 (by decide)

/-- C9 (counterexample): a MoveRight step is claimed to leave the cell
store fully unchanged, but every loop iteration first runs
`data.setdefault(pointer, 0)`: stepping `>` from the initial state turns
the empty store into `{0: 0}` — the set of stored addresses grows. -/
theorem C9_move_counterexample :
    step ⟨[⟨.INCREMENT_POINTER, 0⟩], [], 8, 256⟩ initState =
      .ok ⟨1, 1, [(0, 0)], []⟩ ∧
    ¬((⟨1, 1, [(0, 0)], []⟩ : RunState).data = initState.data) := by
  decide

/-- C9 (amended): a MoveRight/MoveLeft step changes the pointer by +1 or -1
and the program counter by +1 and leaves the output unchanged; the cell
store is unchanged except that the current address is inserted with the
default value 0 if absent (the unconditional `setdefault`); in particular
no existing cell value is modified. -/
theorem C9_move_frame_amended (I : BrainfuckInterpreter) (st : RunState)
    (tok : BrainfuckToken) (hget : I.tokens.get? st.instr = some tok) :
    (tok.type = .INCREMENT_POINTER →
      step I st = .ok ⟨st.pointer + 1, st.instr + 1,
        dictSetdefault st.data st.pointer 0, st.output⟩) ∧
    (tok.type = .DECREMENT_POINTER →
      step I st = .ok ⟨st.pointer - 1, st.instr + 1,
        dictSetdefault st.data st.pointer 0, st.output⟩) ∧
    (∀ p v, dlookup p st.data = some v →
      dlookup p (dictSetdefault st.data st.pointer 0) = some v) := by
  refine ⟨?_, ?_, ?_⟩
  · intro ht
    unfold step
    rw [hget]
    simp only [ht]
  · intro ht
    unfold step
    rw [hget]
    simp only [ht]
  · intro p v hpv
    exact dlookup_dictSetdefault_of_some hpv

theorem C9_move_frame_amended_witness :
    step ⟨[⟨.INCREMENT_POINTER, 0⟩], [], 8, 256⟩ initState =
      .ok ⟨initState.pointer + 1, initState.instr + 1,
        dictSetdefault initState.data initState.pointer 0,
        initState.output⟩ :=
  (C9_move_frame_amended ⟨[⟨.INCREMENT_POINTER, 0⟩], [], 8, 256⟩ initState
    ⟨.INCREMENT_POINTER, 0⟩ (by decide)).1 rfl

/-- C10: at bit-widths 8 and 16 every possible cell value is a valid code
point, so Output never raises; at bit-widths 32 and 64 the program `-.`
constructs successfully, wraps a cell to `2^bits - 1 > 0x10FFFF`, and
`run()` raises `ValueError` at the Output instruction. -/
theorem C10_output_range :
    (∀ (toks : List BrainfuckToken) (bits : Int) (I : BrainfuckInterpreter),
      mkInterpreter toks bits = .ok I → (bits = 8 ∨ bits = 16) →
      ∀ fuel : Nat,
        runFuel I fuel initState ≠ some (.error .valueError)) ∧
    (mkInterpreter [⟨.DECREMENT_BYTE, 0⟩, ⟨.OUTPUT_BYTE, 1⟩] 32 =
      .ok ⟨[⟨.DECREMENT_BYTE, 0⟩, ⟨.OUTPUT_BYTE, 1⟩], [], 32, 2 ^ 32⟩ ∧
      runFuel ⟨[⟨.DECREMENT_BYTE, 0⟩, ⟨.OUTPUT_BYTE, 1⟩], [], 32, 2 ^ 32⟩
        10 initState = some (.error .valueError)) ∧
    (mkInterpreter [⟨.DECREMENT_BYTE, 0⟩, ⟨.OUTPUT_BYTE, 1⟩] 64 =
      .ok ⟨[⟨.DECREMENT_BYTE, 0⟩, ⟨.OUTPUT_BYTE, 1⟩], [], 64, 2 ^ 64⟩ ∧
      runFuel ⟨[⟨.DECREMENT_BYTE, 0⟩, ⟨.OUTPUT_BYTE, 1⟩], [], 64, 2 ^ 64⟩
        10 initState = some (.error .valueError)) := by
  refine ⟨?_, by decide, by decide⟩
  intro toks bits I hmk hb fuel
  obtain ⟨_, _, _, hbw1, hsup, _⟩ := mkInterpreter_inv hmk
  have hb' : bits = 8 ∨ bits = 16 ∨ bits = 32 ∨ bits = 64 := by tauto
  obtain ⟨_, hbwid⟩ := hsup hb'
  have hle : I.bitwidth ≤ 1114112 := by
    rcases hb with rfl | rfl <;> rw [hbwid] <;> decide
  exact runFuel_no_valueError hbw1 hle fuel initState
    (fun p v hpv => by cases hpv)

theorem C10_output_range_witness :
    runFuel ⟨[], [], 8, 256⟩ 5 initState ≠ some (.error .valueError) :=
  C10_output_range.1 [] 8 ⟨[], [], 8, 256⟩ (by decide) (Or.inl rfl) 5

end Brainfuck
